import Mathlib

/-!
Shallow embedding of three source files of the quix-streams repository:

* `src/quixstreams/state/manager.py` — the `StateStoreManager` class,
* `src/quixstreams/sources/community/file/file.py` — the `FileSource` class and
  the `_file_finder` helper,
* `src/docs/tutorials/anomaly-detection/tutorial_app.py` — the
  `TemperatureGenerator` class.

Python dicts are modelled as insertion-ordered association lists, the
filesystem as a list of existing paths (a path being its list of segments),
exceptions as `Option`-valued error components, and side effects (sleeping,
producing records, revoking partitions) as explicit event traces.
-/

/-! ## Association-list helpers (model of Python dict) -/

/-- Lookup in an insertion-ordered association list, as Python `d.get(k)`. -/
def alistGet {K V : Type} [DecidableEq K] : List (K × V) → K → Option V
  | [], _ => none
  | (k2, v) :: rest, k => if k2 = k then some v else alistGet rest k

/-- Assignment `d[k] = v` on an insertion-ordered association list: replaces the
value in place when the key exists, appends otherwise. -/
def alistSet {K V : Type} [DecidableEq K] : List (K × V) → K → V → List (K × V)
  | [], k, v => [(k, v)]
  | (k2, v2) :: rest, k, v =>
    if k2 = k then (k2, v) :: rest else (k2, v2) :: alistSet rest k v

/-! ## State manager embedding (src/quixstreams/state/manager.py) -/

/-- A filesystem path, as its list of segments (assumed already absolute, so
`Path(...).absolute()` is the identity in this model). -/
abbrev FsPath := List String

/-- Which Store class instantiates a registered store. -/
inductive StoreKind where
  | rocksdb
  | memory
  | windowedRocksdb
deriving DecidableEq, Repr

/-- The `store_type` argument of `register_store` (`StoreTypes` in the source is
`Type[RocksDBStore] | Type[MemoryStore]`; any other value falls into the
`raise ValueError` branch, modelled by `invalidT`). -/
inductive StoreTypeArg where
  | rocksdbT
  | memoryT
  | invalidT
deriving DecidableEq, Repr

/-- Modelled from the spec: `StorePartition` (base.py is not among the given
sources) is the per-(topic, partition, store) transactional unit; only its
identity matters to the manager claims. -/
structure StorePartition where
  storeName : String
  storeTopic : Option String
  partitionId : Nat
deriving DecidableEq, Repr

/-- Modelled from the spec: the `Store` base class (base.py is not among the
given sources) is a registry and factory of partitions for one logical state
store (spec section 4.2); the manager constructs stores with a name, a topic,
an optional base directory and an optional changelog producer factory, and a
fresh store has no assigned partitions. -/
structure Store where
  name : String
  topic : Option String
  kind : StoreKind
  baseDir : Option FsPath
  hasChangelogFactory : Bool
  partitions : List Nat
deriving DecidableEq, Repr

/-- Modelled from the spec: `Store.assign_partition(partition)` is "idempotent;
returns the existing one if already assigned" (spec section 4.2). -/
def Store.assign_partition (s : Store) (p : Nat) : Store × StorePartition :=
  if p ∈ s.partitions then (s, ⟨s.name, s.topic, p⟩)
  else ({ s with partitions := s.partitions ++ [p] }, ⟨s.name, s.topic, p⟩)

/-- Modelled from the spec: `Store.revoke_partition(partition)` "closes the
partition" and drops it from the store (spec section 4.2); transactions are out
of scope of the manager claims. -/
def Store.revoke_partition (s : Store) (p : Nat) : Store :=
  { s with partitions := s.partitions.filter (fun q => q ≠ p) }

/-- Modelled from the spec: the Recovery Manager (recovery.py is not among the
given sources); the manager claims only concern which calls the
`StateStoreManager` makes on it, so it records them. -/
structure RecoveryManagerState where
  registeredChangelogs : List (Option String × String)
  assignedPartitions : List (Option String × Nat × List (String × Int))
  revokedPartitions : List Nat
deriving DecidableEq, Repr

/-- Errors raised by the embedded manager methods. -/
inductive StateError where
  | valueError
  | partitionStoreIsUsed
  | storeNotRegisteredError
  | windowedStoreAlreadyRegisteredError
deriving DecidableEq, Repr

/-- State of a `StateStoreManager`: `stores` is the nested dict
`{topic: {store_name: store}}`, `producer` records whether a `RowProducer` was
given, `recovery_manager` the optional `RecoveryManager`. -/
structure StateStoreManager where
  state_dir : Option FsPath
  stores : List (Option String × List (String × Store))
  producer : Bool
  recovery_manager : Option RecoveryManagerState
  default_store_type : StoreTypeArg
deriving DecidableEq, Repr

/-- `StateStoreManager.__init__`: when a `state_dir` is given it is made
absolute and, when a `group_id` is also given, the `group_id` is appended as a
final path component. -/
def mkStateStoreManager (group_id : Option String) (state_dir : Option FsPath)
    (producer : Bool) (recovery_manager : Option RecoveryManagerState)
    (default_store_type : StoreTypeArg) : StateStoreManager :=
  let sd := match state_dir, group_id with
    | some d, some g => some (d ++ [g])
    | some d, none => some d
    | none, _ => none
  { state_dir := sd, stores := [], producer := producer,
    recovery_manager := recovery_manager, default_store_type := default_store_type }

/-- The inner dict `self._stores.get(topic, {})`. -/
def StateStoreManager.topicStores (m : StateStoreManager) (topic : Option String) :
    List (String × Store) :=
  (alistGet m.stores topic).getD []

/-- The lookup `self._stores.get(topic, {}).get(store_name)`. -/
def StateStoreManager.getStoreOpt (m : StateStoreManager) (topic : Option String)
    (store_name : String) : Option Store :=
  alistGet (m.topicStores topic) store_name

/-- The assignment `self._stores.setdefault(topic, {})[store_name] = store`. -/
def StateStoreManager.putStore (m : StateStoreManager) (topic : Option String)
    (store_name : String) (store : Store) : StateStoreManager :=
  let inner := alistSet (m.topicStores topic) store_name store
  { m with stores := alistSet m.stores topic inner }

/-- `StateStoreManager._setup_changelogs`: returns `none` (no factory) unless
both a recovery manager and a producer are present; otherwise registers the
changelog with the recovery manager and returns a `ChangelogProducerFactory`
(modelled by the `Bool` component). -/
def StateStoreManager.setupChangelogs (m : StateStoreManager)
    (topic_name : Option String) (store_name : String) :
    StateStoreManager × Bool :=
  match m.recovery_manager, m.producer with
  | some rm, true =>
    let rm2 := { rm with registeredChangelogs := rm.registeredChangelogs ++ [(topic_name, store_name)] }
    ({ m with recovery_manager := some rm2 }, true)
  | some _, false => (m, false)
  | none, _ => (m, false)

/-- `StateStoreManager.register_store`: when no store is registered yet under
`(topic_name, store_name)`, sets up changelogs and registers a store of the
requested type (`ValueError` for an invalid type); otherwise does nothing.
The returned manager carries any mutation made before an error is raised. -/
def StateStoreManager.register_store (m : StateStoreManager)
    (topic_name : Option String) (store_name : String)
    (store_type : Option StoreTypeArg) : StateStoreManager × Option StateError :=
  if (m.getStoreOpt topic_name store_name).isSome then (m, none)
  else
    let m1 := (m.setupChangelogs topic_name store_name).1
    let hasFactory := (m.setupChangelogs topic_name store_name).2
    match store_type.getD m.default_store_type with
    | .rocksdbT =>
      (m1.putStore topic_name store_name
        { name := store_name, topic := topic_name, kind := .rocksdb,
          baseDir := m.state_dir, hasChangelogFactory := hasFactory,
          partitions := [] }, none)
    | .memoryT =>
      (m1.putStore topic_name store_name
        { name := store_name, topic := topic_name, kind := .memory,
          baseDir := none, hasChangelogFactory := hasFactory,
          partitions := [] }, none)
    | .invalidT => (m1, some .valueError)

/-- `StateStoreManager.register_windowed_store`: raises
`WindowedStoreAlreadyRegisteredError` when any store already exists under
`(topic_name, store_name)`, otherwise registers a `WindowedRocksDBStore`. -/
def StateStoreManager.register_windowed_store (m : StateStoreManager)
    (topic_name : String) (store_name : String) :
    StateStoreManager × Option StateError :=
  match m.getStoreOpt (some topic_name) store_name with
  | some _ => (m, some .windowedStoreAlreadyRegisteredError)
  | none =>
    let m1 := (m.setupChangelogs (some topic_name) store_name).1
    let hasFactory := (m.setupChangelogs (some topic_name) store_name).2
    (m1.putStore (some topic_name) store_name
      { name := store_name, topic := some topic_name, kind := .windowedRocksdb,
        baseDir := m.state_dir, hasChangelogFactory := hasFactory,
        partitions := [] }, none)

/-- The filesystem, as the list of currently existing paths. -/
abbrev FileSystem := List FsPath

/-- `shutil.rmtree(d, ignore_errors=True)`: removes the directory and
everything below it. -/
def rmtree (d : FsPath) (fs : FileSystem) : FileSystem :=
  fs.filter (fun p => !(List.isPrefixOf d p))

/-- The guard `any(store.partitions for topic_stores in self._stores.values()
for store in topic_stores.values())`. -/
def StateStoreManager.anyStoreHasPartitions (m : StateStoreManager) : Bool :=
  m.stores.any (fun ts => ts.2.any (fun ns => !ns.2.partitions.isEmpty))

/-- `StateStoreManager.clear_stores`: raises `PartitionStoreIsUsed` when any
store has assigned partitions, otherwise removes the state directory tree
(when one is configured). -/
def StateStoreManager.clear_stores (m : StateStoreManager) (fs : FileSystem) :
    FileSystem × Option StateError :=
  if m.anyStoreHasPartitions then (fs, some .partitionStoreIsUsed)
  else
    match m.state_dir with
    | some d => (rmtree d fs, none)
    | none => (fs, none)

/-- The loop `for name, store in self._stores.get(topic, {}).items():
store_partitions[name] = store.assign_partition(partition)`, also returning the
updated stores and the trace of `assign_partition` calls. -/
def assignLoop (partition : Nat) :
    List (String × Store) →
      List (String × Store) × List (String × StorePartition) × List (String × Nat)
  | [] => ([], [], [])
  | (name, st) :: rest =>
    let stsp := st.assign_partition partition
    let r := assignLoop partition rest
    ((name, stsp.1) :: r.1, (name, stsp.2) :: r.2.1, (name, partition) :: r.2.2)

/-- Result of `on_partition_assign`: the updated manager, the returned dict
`{store_name: store_partition}`, and the trace of `assign_partition` calls
(store name, partition). -/
structure AssignResult where
  manager : StateStoreManager
  store_partitions : List (String × StorePartition)
  assignCalls : List (String × Nat)
deriving Repr

/-- `StateStoreManager.on_partition_assign`: calls `assign_partition` on every
store registered under `topic`, collects the results into a dict keyed by
store name, and, when a recovery manager is configured and the dict is
non-empty, passes the assignment on to it together with `committed_offsets`. -/
def StateStoreManager.on_partition_assign (m : StateStoreManager)
    (topic : Option String) (partition : Nat)
    (committed_offsets : List (String × Int)) : AssignResult :=
  let r := assignLoop partition (m.topicStores topic)
  let m1 := match alistGet m.stores topic with
    | some _ => { m with stores := alistSet m.stores topic r.1 }
    | none => m
  let m2 := match m1.recovery_manager with
    | some rm =>
      if r.2.1.isEmpty then m1
      else
        let rm2 := { rm with assignedPartitions := rm.assignedPartitions ++ [(topic, partition, committed_offsets)] }
        { m1 with recovery_manager := some rm2 }
    | none => m1
  { manager := m2, store_partitions := r.2.1, assignCalls := r.2.2 }

/-- One observable call made during `on_partition_revoke`. -/
inductive RevokeEvent where
  | recoveryRevoke (partition : Nat)
  | storeRevoke (store_name : String) (partition : Nat)
deriving DecidableEq, Repr

/-- The loop `for store in stores: store.revoke_partition(partition=partition)`
with its call trace. -/
def revokeLoop (partition : Nat) :
    List (String × Store) → List (String × Store) × List RevokeEvent
  | [] => ([], [])
  | (name, st) :: rest =>
    let st2 := st.revoke_partition partition
    let r := revokeLoop partition rest
    ((name, st2) :: r.1, RevokeEvent.storeRevoke name partition :: r.2)

/-- `StateStoreManager.on_partition_revoke`: when stores are registered under
`topic`, first (when a recovery manager is configured) revokes the partition on
the recovery manager, then revokes it on each store. The second component is
the trace of calls in order. -/
def StateStoreManager.on_partition_revoke (m : StateStoreManager) (topic : String)
    (partition : Nat) : StateStoreManager × List RevokeEvent :=
  let tstores := m.topicStores (some topic)
  if tstores.isEmpty then (m, [])
  else
    let m1 := match m.recovery_manager with
      | some rm =>
        let rm2 := { rm with revokedPartitions := rm.revokedPartitions ++ [partition] }
        { m with recovery_manager := some rm2 }
      | none => m
    let evs1 : List RevokeEvent := match m.recovery_manager with
      | some _ => [RevokeEvent.recoveryRevoke partition]
      | none => []
    let r := revokeLoop partition tstores
    let m2 := match alistGet m1.stores (some topic) with
      | some _ => { m1 with stores := alistSet m1.stores (some topic) r.1 }
      | none => m1
    (m2, evs1 ++ r.2)

/-! ## FileSource embedding (src/quixstreams/sources/community/file/file.py) -/

/-- One record as yielded by `Format.file_read` (key, value and the
`_timestamp` field in milliseconds). -/
structure FileRecord where
  recKey : String
  recValue : String
  timestamp : Int
deriving DecidableEq, Repr

/-- A directory tree: a non-directory file carries the records its configured
formatter yields for it, a directory carries its entries. -/
inductive FsTree where
  | file (name : String) (records : List FileRecord)
  | dir (name : String) (children : List FsTree)

mutual
/-- Number of nodes of a tree (used as recursion fuel below). -/
def FsTree.size : FsTree → Nat
  | .file _ _ => 1
  | .dir _ cs => 1 + FsTree.sizeList cs
/-- Total number of nodes of a list of trees. -/
def FsTree.sizeList : List FsTree → Nat
  | [] => 0
  | c :: cs => FsTree.size c + FsTree.sizeList cs
end

/-- The entry name (`Path.name`) of a tree node. -/
def FsTree.name : FsTree → String
  | .file n _ => n
  | .dir n _ => n

/-- Lexicographic comparison of char lists by code point, the order Python
uses to compare `str` keys in `sorted(..., key=lambda x: x.name)`. -/
def lexLeB : List Char → List Char → Bool
  | [], _ => true
  | _ :: _, [] => false
  | a :: as, b :: bs => if a < b then true else if b < a then false else lexLeB as bs

/-- Name comparison between two directory entries. -/
def nameLe (a b : FsTree) : Bool := lexLeB a.name.data b.name.data

/-- Stable insertion of an entry into a name-sorted list of entries. -/
def insertByName (t : FsTree) : List FsTree → List FsTree
  | [] => [t]
  | c :: cs => if nameLe t c then t :: c :: cs else c :: insertByName t cs

/-- The call `sorted(filepath.iterdir(), key=lambda x: x.name)`: a stable sort
of the entries of a directory, ascending by name. -/
def sortedChildren : List FsTree → List FsTree
  | [] => []
  | c :: cs => insertByName c (sortedChildren cs)

/-- The generator `_file_finder(filepath)`: depth-first traversal yielding the
full path and records of every non-directory file, visiting the entries of each
directory in name order. The `fuel` argument only bounds the recursion depth
(Python recursion is unbounded); `fileFinder` below instantiates it with the
tree size, which is always sufficient (`fileFinderFuel_congr`). -/
def fileFinderFuel : Nat → FsPath → FsTree → List (FsPath × List FileRecord)
  | 0, _, _ => []
  | _ + 1, pre, .file n recs => [(pre ++ [n], recs)]
  | fuel + 1, pre, .dir n cs =>
      (sortedChildren cs).flatMap (fileFinderFuel fuel (pre ++ [n]))

/-- `_file_finder(filepath)` rooted at path `pre`. -/
def fileFinder (pre : FsPath) (t : FsTree) : List (FsPath × List FileRecord) :=
  fileFinderFuel (FsTree.size t) pre t

/-- Reference collector: the same depth-first traversal without the sorting,
i.e. exactly the non-directory files of the tree in raw order. -/
def naiveFilesFuel : Nat → FsPath → FsTree → List (FsPath × List FileRecord)
  | 0, _, _ => []
  | _ + 1, pre, .file n recs => [(pre ++ [n], recs)]
  | fuel + 1, pre, .dir n cs => cs.flatMap (naiveFilesFuel fuel (pre ++ [n]))

/-- The non-directory files of the tree, in raw depth-first order. -/
def naiveFiles (pre : FsPath) (t : FsTree) : List (FsPath × List FileRecord) :=
  naiveFilesFuel (FsTree.size t) pre t

/-- Replay bookkeeping of a `FileSource`: `_previous_timestamp` and
`_previous_partition`. -/
structure ReplayState where
  previous_timestamp : Option Int
  previous_partition : Option Int
deriving DecidableEq, Repr

/-- One observable action of `FileSource.run`: sleeping (seconds), producing a
record, or flushing the producer. -/
inductive EmitEvent where
  | sleepSec (seconds : ℚ)
  | produce (rec : FileRecord)
  | flush
deriving DecidableEq, Repr

/-- `FileSource._replay_delay(current_timestamp)`: when a previous timestamp is
tracked and `(current - previous) / 1000` is positive, sleep that many seconds;
then remember the current timestamp. -/
def replayDelay (st : ReplayState) (current_timestamp : Int) :
    ReplayState × List EmitEvent :=
  let evs := match st.previous_timestamp with
    | some prev =>
      let time_diff : ℚ := Rat.divInt (current_timestamp - prev) 1000
      if 0 < time_diff then [EmitEvent.sleepSec time_diff] else []
    | none => []
  ({ st with previous_timestamp := some current_timestamp }, evs)

/-- `file.parent.name` for a path given as its list of segments. -/
def parentName (p : FsPath) : Option String := p.dropLast.getLast?

/-- Decimal digit accumulator for `parseIntName`; `none` when no digit has
been seen yet or a non-digit occurs. -/
def parseNatDigits : List Char → Option Nat → Option Nat
  | [], acc => acc
  | c :: cs, acc =>
    if c.isDigit then
      parseNatDigits cs (some (acc.getD 0 * 10 + (c.toNat - Char.toNat '0')))
    else none

/-- Python `int(s)` on a directory name: an optional minus sign followed by at
least one decimal digit; `none` models the `ValueError` otherwise. -/
def parseIntName (s : String) : Option Int :=
  match s.data with
  | '-' :: rest => (parseNatDigits rest none).map (fun n => -(n : Int))
  | l => (parseNatDigits l none).map (fun n => (n : Int))

/-- `int(file.parent.name)`, `none` when `int()` would raise `ValueError`. -/
def partitionOfPath (p : FsPath) : Option Int :=
  (parentName p).bind parseIntName

/-- `FileSource._check_file_partition_number(file)`: when the partition number
of the file differs from the tracked one, reset the timestamp tracker and
remember the new partition; `none` models the `ValueError` of `int()`. -/
def checkFilePartitionNumber (st : ReplayState) (file : FsPath) :
    Option ReplayState :=
  match partitionOfPath file with
  | none => none
  | some partition =>
    if st.previous_partition ≠ some partition then
      some { previous_timestamp := none, previous_partition := some partition }
    else
      some st

/-- The loop `for record in self._formatter.file_read(file)` of
`FileSource.run`: for each record, apply the replay delay (when `as_replay`)
and produce the record. -/
def processRecords (as_replay : Bool) : ReplayState → List FileRecord →
    ReplayState × List EmitEvent
  | st, [] => (st, [])
  | st, r :: rest =>
    let step := if as_replay then replayDelay st r.timestamp else (st, [])
    let next := processRecords as_replay step.1 rest
    (next.1, step.2 ++ [EmitEvent.produce r] ++ next.2)

/-- The loop `for file in _file_finder(self._filepath)` of `FileSource.run`:
check the partition number, read the records, flush. The second component is
`none` when a `ValueError` escaped (events already emitted are kept). -/
def processFiles (as_replay : Bool) : ReplayState → List (FsPath × List FileRecord) →
    List EmitEvent × Option ReplayState
  | st, [] => ([], some st)
  | st, (path, recs) :: rest =>
    match checkFilePartitionNumber st path with
    | none => ([], none)
    | some st1 =>
      let step := processRecords as_replay st1 recs
      let next := processFiles as_replay step.1 rest
      (step.2 ++ [EmitEvent.flush] ++ next.1, next.2)

/-- Result of one call to `FileSource.run`: the emitted events, how many full
passes over the file tree were made, and the value of the `_running` flag at
the moment `run` returned. -/
structure RunResult where
  events : List EmitEvent
  passes : Nat
  runningAtReturn : Bool
deriving DecidableEq, Repr

/-- `FileSource.run`: `while self._running:` iterate once over the file tree
(checking partition numbers, pacing and producing each record, flushing after
each file) and then `return`. The `_running` flag is not written inside `run`,
so it is modelled as a constant for the duration of the call; `none` models an
escaping `ValueError`. -/
def FileSource.run (running : Bool) (as_replay : Bool) (filepath : FsTree) :
    Option RunResult :=
  if running then
    let r := processFiles as_replay ⟨none, none⟩ (fileFinder [] filepath)
    match r.2 with
    | some _ => some { events := r.1, passes := 1, runningAtReturn := running }
    | none => none
  else
    some { events := [], passes := 0, runningAtReturn := running }

/-- Configuration of a topic. -/
structure TopicConfig where
  num_partitions : Nat
  replication_factor : Nat
deriving DecidableEq, Repr

/-- A topic: a name and a configuration. -/
structure Topic where
  topicName : String
  config : TopicConfig
deriving DecidableEq, Repr

/-- `FileSource._get_partition_count`: `len([f for f in
self._filepath.iterdir()])`; `none` when `filepath` is not a directory
(`iterdir` raises). -/
def getPartitionCount (filepath : FsTree) : Option Nat :=
  match filepath with
  | .dir _ cs => some cs.length
  | .file _ _ => none

/-- `FileSource.default_topic`: take the superclass default topic (passed here
as `base`) and replace its config by one with the file-folder fan-out as
partition count and replication factor 1. -/
def FileSource.default_topic (base : Topic) (filepath : FsTree) : Option Topic :=
  match getPartitionCount filepath with
  | none => none
  | some n =>
    some { base with config := { num_partitions := n, replication_factor := 1 } }

/-! ## Tutorial generator embedding
(src/docs/tutorials/anomaly-detection/tutorial_app.py) -/

/-- `TemperatureGenerator.probabilities_normal`: percent chances for a
`[-1, 0, 1]` change given the decade of the current temperature. -/
def probabilities_normal (bucket : Int) : Option (List Nat) :=
  if bucket = 40 then some [0, 0, 100]
  else if bucket = 50 then some [20, 30, 50]
  else if bucket = 60 then some [30, 40, 30]
  else if bucket = 70 then some [40, 50, 10]
  else if bucket = 80 then some [80, 10, 10]
  else if bucket = 90 then some [100, 0, 0]
  else none

/-- `TemperatureGenerator.probabilities_issue`. -/
def probabilities_issue (bucket : Int) : Option (List Nat) :=
  if bucket = 40 then some [0, 0, 100]
  else if bucket = 50 then some [0, 10, 90]
  else if bucket = 60 then some [5, 15, 80]
  else if bucket = 70 then some [5, 20, 75]
  else if bucket = 80 then some [5, 20, 75]
  else if bucket = 90 then some [10, 20, 70]
  else none

/-- `TemperatureGenerator.machine_types`: machines 0 and 1 are normal,
machine 2 is the issue machine; `none` models a `KeyError` for other ids. -/
def machine_types (m : Nat) : Option (Int → Option (List Nat)) :=
  if m = 0 then some probabilities_normal
  else if m = 1 then some probabilities_normal
  else if m = 2 then some probabilities_issue
  else none

/-- The dict key `(self.machine_temps[machine_id] // 10) * 10` (Python `//` is
floor division, `Int.fdiv`). -/
def bucketOf (temp : Int) : Int := temp.fdiv 10 * 10

/-- The weight `random.choices` gives to a change of `c` under the weight list
`ws` (which lists the weights of -1, 0, 1 in that order). -/
def changeWeight (ws : List Nat) (c : Int) : Nat :=
  if c = -1 then ws.getD 0 0
  else if c = 0 then ws.getD 1 0
  else if c = 1 then ws.getD 2 0
  else 0

/-- State of a `TemperatureGenerator`: `event_count`, the three machine
temperatures, and whether `stop()` has been called (the negation of the
`running` flag read by `run`). -/
structure GenState where
  event_count : Nat
  temp0 : Int
  temp1 : Int
  temp2 : Int
  stopped : Bool
deriving DecidableEq, Repr

/-- `self.machine_temps[machine_id]` (machine ids are always `count % 3`, so
only 0, 1, 2 occur). -/
def GenState.temp (s : GenState) (m : Nat) : Int :=
  if m = 0 then s.temp0 else if m = 1 then s.temp1 else s.temp2

/-- Assignment to `self.machine_temps[machine_id]`. -/
def GenState.setTemp (s : GenState) (m : Nat) (v : Int) : GenState :=
  if m = 0 then { s with temp0 := v }
  else if m = 1 then { s with temp1 := v }
  else { s with temp2 := v }

/-- `TemperatureGenerator.__init__`: counts from 0, temperatures
`{0: 66, 1: 58, 2: 62}`, running. -/
def initGen : GenState :=
  { event_count := 0, temp0 := 66, temp1 := 58, temp2 := 62, stopped := false }

/-- `TemperatureGenerator.update_machine_temp(machine_id)` with the change `c`
drawn by `random.choices`: looks up the machine probability table and the
bucket key, then adds `c`; `none` models the `KeyError` when the bucket is
not a key of the table. -/
def update_machine_temp (s : GenState) (machine_id : Nat) (c : Int) :
    Option GenState :=
  match machine_types machine_id with
  | none => none
  | some table =>
    match table (bucketOf (s.temp machine_id)) with
    | none => none
    | some _ => some (s.setTemp machine_id (s.temp machine_id + c))

/-- The event returned by `generate_event` (the `Timestamp` field is wall-clock
`time.time_ns()` and is outside this model). -/
structure EventOut where
  key : String
  temperature : Int
deriving DecidableEq, Repr

/-- `TemperatureGenerator.generate_event()` with the change `c` drawn by
`random.choices`: updates the temperature of machine `event_count % 3`, builds
the event, increments the counter, and calls `stop()` exactly when the updated
temperature equals 100. -/
def generate_event (s : GenState) (c : Int) : Option (GenState × EventOut) :=
  let machine_id := s.event_count % 3
  match update_machine_temp s machine_id c with
  | none => none
  | some s1 =>
    let out : EventOut := { key := toString machine_id, temperature := s1.temp machine_id }
    let s2 := { s1 with event_count := s1.event_count + 1 }
    let s3 := if s2.temp machine_id = 100 then { s2 with stopped := true } else s2
    some (s3, out)

/-- `TemperatureGenerator.run()`: `while self.running:` generate and produce an
event. Randomness is made explicit as the list `cs` of changes drawn by
`random.choices`; the loop stops as soon as `stop()` has been invoked. -/
def runGen : GenState → List Int → Option GenState
  | s, [] => some s
  | s, c :: cs =>
    if s.stopped then some s
    else
      match generate_event s c with
      | none => none
      | some r => runGen r.1 cs

/-- Whether `random.choices` can actually draw `c` in state `s`: whenever the
weighted table is consulted (both dict lookups succeed), the weight of `c` must
be positive. When a lookup would raise `KeyError` the draw is never made, so no
constraint is imposed: the predicate does not presuppose that the lookups
succeed. -/
def validChoice (s : GenState) (c : Int) : Bool :=
  let machine_id := s.event_count % 3
  match machine_types machine_id with
  | none => true
  | some table =>
    match table (bucketOf (s.temp machine_id)) with
    | none => true
    | some ws => decide (0 < changeWeight ws c)

/-- Whether a whole list of draws is possible, step by step. Draws after the
generator stopped, and draws after a step that raised, are never made, so they
are unconstrained; in particular `validChoices` alone does not imply that
`runGen` succeeds. -/
def validChoices : GenState → List Int → Bool
  | _, [] => true
  | s, c :: cs =>
    if s.stopped then true
    else
      validChoice s c &&
        (match generate_event s c with
         | none => true
         | some r => validChoices r.1 cs)

/-! ## Derived notions used by the file-source claims -/

/-- The records carried by `produce` events, in order. -/
def producedRecords (evs : List EmitEvent) : List FileRecord :=
  evs.filterMap (fun e => match e with
    | EmitEvent.produce r => some r
    | _ => none)

/-- The pacing-relevant events (sleeps and produces), dropping the per-file
flushes. -/
def pacingEvents (evs : List EmitEvent) : List EmitEvent :=
  evs.filter (fun e => match e with
    | EmitEvent.flush => false
    | _ => true)

/-- The flattened record stream of a file list, each record annotated with the
partition number of its file (files whose folder name is not an integer are
skipped; the claims assume they parse). -/
def flatPartRecords (files : List (FsPath × List FileRecord)) :
    List (Int × FileRecord) :=
  files.flatMap (fun f => match partitionOfPath f.1 with
    | some part => f.2.map (fun r => (part, r))
    | none => [])

/-- The delay the claim prescribes before one record: sleep
`(current - previous) / 1000` seconds exactly when a previous record exists,
has the same partition number, and a strictly smaller timestamp. -/
def specHead (prev : Option (Int × Int)) (part : Int) (ts : Int) : List EmitEvent :=
  match prev with
  | some pp =>
    if pp.1 = part ∧ pp.2 < ts then
      [EmitEvent.sleepSec (((ts - pp.2 : Int) : ℚ) / 1000)]
    else []
  | none => []

/-- Claim-side pacing over the flattened record stream: before each record its
prescribed delay (`specHead`), then the record; the first record after a
partition-number change gets no delay. -/
def specReplayTrace : Option (Int × Int) → List (Int × FileRecord) → List EmitEvent
  | _, [] => []
  | prev, (part, r) :: rest =>
    specHead prev part r.timestamp ++
      (EmitEvent.produce r :: specReplayTrace (some (part, r.timestamp)) rest)

/-- The (partition, timestamp) of the last record of the stream, or the given
previous one when the stream is empty. -/
def specAfterL (p : Option (Int × Int)) (l : List (Int × FileRecord)) :
    Option (Int × Int) :=
  l.foldl (fun _ pr => some (pr.1, pr.2.timestamp)) p

/-- Relation between the code-side timestamp tracker (after
`_check_file_partition_number` ran for a file of partition `part`) and the
claim-side previous record. -/
def tsRel (ts : Option Int) (p : Option (Int × Int)) (part : Int) : Prop :=
  match p with
  | some pp => if pp.1 = part then ts = some pp.2 else ts = none
  | none => ts = none

/-- Relation between the code-side replay state at a file boundary and the
claim-side previous record. -/
def stRel (st : ReplayState) (p : Option (Int × Int)) : Prop :=
  match p with
  | some pp =>
    st = { previous_timestamp := some pp.2, previous_partition := some pp.1 }
  | none => st = { previous_timestamp := none, previous_partition := none }

/-- Invariant of the temperature generator: every machine temperature is within
`[40, 100]`, and strictly below 100 while the generator is running. -/
def tempInv (s : GenState) : Prop :=
  (40 ≤ s.temp0 ∧ s.temp0 ≤ 100) ∧ (40 ≤ s.temp1 ∧ s.temp1 ≤ 100) ∧
  (40 ≤ s.temp2 ∧ s.temp2 ≤ 100) ∧
  (s.stopped = false → s.temp0 ≤ 99 ∧ s.temp1 ≤ 99 ∧ s.temp2 ≤ 99)

/-! ## Concrete inputs used by witnesses and counterexamples -/

/-- Manager with neither producer nor recovery manager, RocksDB default. -/
def c1Manager0 : StateStoreManager :=
  mkStateStoreManager (some "group") (some ["state"]) false none .rocksdbT

/-- `c1Manager0` after a first successful RocksDB registration. -/
def c1Manager1 : StateStoreManager :=
  (c1Manager0.register_store (some "topic-a") "store-a" (some .rocksdbT)).1

/-- Manager with one registered store and no assigned partition. -/
def c3m0 : StateStoreManager :=
  ((mkStateStoreManager (some "g") (some ["sd"]) false none .rocksdbT).register_store
    (some "t") "s" none).1

/-- `c3m0` after partition 0 of topic `t` was assigned. -/
def c3m1 : StateStoreManager :=
  (c3m0.on_partition_assign (some "t") 0 []).manager

/-- A filesystem holding the state directory, a store directory below it, and
an unrelated path. -/
def c3fs : FileSystem := [["sd", "g"], ["sd", "g", "s"], ["other"]]

/-- Manager with two stores registered under topic `t`. -/
def c4m : StateStoreManager :=
  (((mkStateStoreManager none none false none .rocksdbT).register_store
    (some "t") "s1" none).1.register_store (some "t") "s2" none).1

/-- Manager with one store under topic `t` and a recovery manager configured. -/
def c6m : StateStoreManager :=
  (((mkStateStoreManager none none false (some ⟨[], [], []⟩) .rocksdbT).register_store
    (some "t") "s" none).1.on_partition_assign (some "t") 3 []).manager

/-- A topic folder with one partition folder holding one single-record file. -/
def c2Tree : FsTree :=
  .dir "topic" [.dir "0" [.file "f"
    [{ recKey := "k", recValue := "v", timestamp := 100 }]]]

/-- Two topic folders, each with a partition folder named `0`: the partition
folders `a/0` and `b/0` are distinct folders carrying the same number. -/
def c7Tree : FsTree :=
  .dir "tops" [
    .dir "a" [.dir "0" [.file "f1"
      [{ recKey := "k", recValue := "v1", timestamp := 1000 }]]],
    .dir "b" [.dir "0" [.file "f2"
      [{ recKey := "k", recValue := "v2", timestamp := 2000 }]]]]

/-- A topic folder with one partition folder holding a two-record file whose
records are 2000 ms apart. -/
def c7wTree : FsTree :=
  .dir "topic" [.dir "0" [.file "f"
    [{ recKey := "k", recValue := "v1", timestamp := 1000 },
     { recKey := "k", recValue := "v2", timestamp := 3000 }]]]

/-- The run result of `FileSource.run` on `c7wTree` with replay on. -/
def c7wRes : RunResult :=
  { events := [EmitEvent.produce { recKey := "k", recValue := "v1", timestamp := 1000 },
      EmitEvent.sleepSec 2,
      EmitEvent.produce { recKey := "k", recValue := "v2", timestamp := 3000 },
      EmitEvent.flush],
    passes := 1, runningAtReturn := true }

/-- The run result of `FileSource.run` on `c7Tree` with replay on. -/
def c7Res : RunResult :=
  { events := [EmitEvent.produce { recKey := "k", recValue := "v1", timestamp := 1000 },
      EmitEvent.flush,
      EmitEvent.sleepSec 1,
      EmitEvent.produce { recKey := "k", recValue := "v2", timestamp := 2000 },
      EmitEvent.flush],
    passes := 1, runningAtReturn := true }

/-- A directory with entries named `2` and `10`. -/
def c9Tree : FsTree :=
  .dir "top" [.dir "2" [.file "b" []], .dir "10" [.file "a" []]]

/-! ## Shared helper lemmas -/

theorem alistGet_alistSet_self {K V : Type} [DecidableEq K]
    (l : List (K × V)) (k : K) (v : V) : alistGet (alistSet l k v) k = some v := by
  induction l with
  | nil => simp [alistGet, alistSet]
  | cons kv rest ih =>
    by_cases h : kv.1 = k
    · simp [alistSet, alistGet, h]
    · simp [alistSet, alistGet, h, ih]

theorem getStoreOpt_putStore (m : StateStoreManager) (t : Option String)
    (s : String) (store : Store) :
    (m.putStore t s store).getStoreOpt t s = some store := by
  unfold StateStoreManager.putStore StateStoreManager.getStoreOpt
      StateStoreManager.topicStores
  simp only [alistGet_alistSet_self, Option.getD_some]

theorem flatMap_congr_mem {α β : Type} {l : List α} {f g : α → List β}
    (h : ∀ a ∈ l, f a = g a) : l.flatMap f = l.flatMap g := by
  induction l with
  | nil => rfl
  | cons a as ih =>
    simp only [List.flatMap_cons]
    rw [h a (List.mem_cons_self a as), ih (fun x hx => h x (List.mem_cons_of_mem a hx))]

theorem mem_insertByName {t a : FsTree} {cs : List FsTree} :
    a ∈ insertByName t cs → a = t ∨ a ∈ cs := by
  induction cs with
  | nil => simp [insertByName]
  | cons c cs ih =>
    simp only [insertByName]
    split
    · simp only [List.mem_cons]
      tauto
    · simp only [List.mem_cons]
      intro h
      rcases h with h | h
      · tauto
      · rcases ih h with h2 | h2 <;> tauto

theorem mem_sortedChildren {a : FsTree} {cs : List FsTree} :
    a ∈ sortedChildren cs → a ∈ cs := by
  induction cs with
  | nil => simp [sortedChildren]
  | cons c cs ih =>
    intro h
    rcases mem_insertByName h with h2 | h2
    · simp [h2]
    · exact List.mem_cons_of_mem _ (ih h2)

theorem perm_insertByName (t : FsTree) (cs : List FsTree) :
    (insertByName t cs).Perm (t :: cs) := by
  induction cs with
  | nil => simp [insertByName]
  | cons c cs ih =>
    simp only [insertByName]
    split
    · exact List.Perm.refl _
    · exact (List.Perm.cons c ih).trans (List.Perm.swap t c cs)

theorem perm_sortedChildren (cs : List FsTree) : (sortedChildren cs).Perm cs := by
  induction cs with
  | nil => exact List.Perm.refl _
  | cons c cs ih =>
    exact (perm_insertByName c (sortedChildren cs)).trans (List.Perm.cons c ih)

theorem size_le_sizeList {c : FsTree} {cs : List FsTree} (h : c ∈ cs) :
    FsTree.size c ≤ FsTree.sizeList cs := by
  induction cs with
  | nil => cases h
  | cons a as ih =>
    rcases List.mem_cons.mp h with h2 | h2
    · subst h2
      simp [FsTree.sizeList]
    · have := ih h2
      simp only [FsTree.sizeList]
      omega

theorem size_pos (t : FsTree) : 0 < FsTree.size t := by
  cases t <;> simp [FsTree.size]

theorem fileFinderFuel_congr {f g : Nat} (pre : FsPath) (t : FsTree)
    (hf : FsTree.size t ≤ f) (hg : FsTree.size t ≤ g) :
    fileFinderFuel f pre t = fileFinderFuel g pre t := by
  induction f generalizing g pre t with
  | zero =>
    have := size_pos t
    omega
  | succ f ih =>
    cases g with
    | zero =>
      have := size_pos t
      omega
    | succ g =>
      cases t with
      | file n recs => simp [fileFinderFuel]
      | dir n cs =>
        simp only [FsTree.size] at hf hg
        simp only [fileFinderFuel]
        apply flatMap_congr_mem
        intro c hc
        have hm : c ∈ cs := mem_sortedChildren hc
        have h1 : FsTree.size c ≤ FsTree.sizeList cs := size_le_sizeList hm
        exact ih (pre ++ [n]) c (by omega) (by omega)

theorem naiveFilesFuel_congr {f g : Nat} (pre : FsPath) (t : FsTree)
    (hf : FsTree.size t ≤ f) (hg : FsTree.size t ≤ g) :
    naiveFilesFuel f pre t = naiveFilesFuel g pre t := by
  induction f generalizing g pre t with
  | zero =>
    have := size_pos t
    omega
  | succ f ih =>
    cases g with
    | zero =>
      have := size_pos t
      omega
    | succ g =>
      cases t with
      | file n recs => simp [naiveFilesFuel]
      | dir n cs =>
        simp only [FsTree.size] at hf hg
        simp only [naiveFilesFuel]
        apply flatMap_congr_mem
        intro c hc
        have h1 : FsTree.size c ≤ FsTree.sizeList cs := size_le_sizeList hc
        exact ih (pre ++ [n]) c (by omega) (by omega)

theorem fileFinder_file_eq (pre : FsPath) (n : String) (recs : List FileRecord) :
    fileFinder pre (.file n recs) = [(pre ++ [n], recs)] := rfl

theorem fileFinder_dir_eq (pre : FsPath) (n : String) (cs : List FsTree) :
    fileFinder pre (.dir n cs) =
      (sortedChildren cs).flatMap (fun c => fileFinder (pre ++ [n]) c) := by
  show fileFinderFuel (1 + FsTree.sizeList cs) pre (.dir n cs) = _
  have h1 : 1 + FsTree.sizeList cs = FsTree.sizeList cs + 1 := by omega
  rw [h1]
  simp only [fileFinderFuel]
  apply flatMap_congr_mem
  intro c hc
  have hm : c ∈ cs := mem_sortedChildren hc
  have h2 : FsTree.size c ≤ FsTree.sizeList cs := size_le_sizeList hm
  exact fileFinderFuel_congr (pre ++ [n]) c h2 (le_refl _)

theorem naiveFiles_dir_eq (pre : FsPath) (n : String) (cs : List FsTree) :
    naiveFiles pre (.dir n cs) = cs.flatMap (fun c => naiveFiles (pre ++ [n]) c) := by
  show naiveFilesFuel (1 + FsTree.sizeList cs) pre (.dir n cs) = _
  have h1 : 1 + FsTree.sizeList cs = FsTree.sizeList cs + 1 := by omega
  rw [h1]
  simp only [naiveFilesFuel]
  apply flatMap_congr_mem
  intro c hc
  have h2 : FsTree.size c ≤ FsTree.sizeList cs := size_le_sizeList hc
  exact naiveFilesFuel_congr (pre ++ [n]) c h2 (le_refl _)

theorem fileFinder_perm_naiveFiles (pre : FsPath) (t : FsTree) :
    (fileFinder pre t).Perm (naiveFiles pre t) := by
  have main : ∀ f t pre, FsTree.size t ≤ f → (fileFinder pre t).Perm (naiveFiles pre t) := by
    intro f
    induction f with
    | zero =>
      intro t pre hf
      have := size_pos t
      omega
    | succ f ih =>
      intro t pre hf
      cases t with
      | file n recs => exact List.Perm.refl _
      | dir n cs =>
        rw [fileFinder_dir_eq, naiveFiles_dir_eq]
        have hstep : ((sortedChildren cs).flatMap
            (fun c => fileFinder (pre ++ [n]) c)).Perm
            ((sortedChildren cs).flatMap (fun c => naiveFiles (pre ++ [n]) c)) := by
          apply List.Perm.flatMap_left
          intro a ha
          have hm : a ∈ cs := mem_sortedChildren ha
          have h1 : FsTree.size a ≤ FsTree.sizeList cs := size_le_sizeList hm
          simp only [FsTree.size] at hf
          exact ih a (pre ++ [n]) (by omega)
        exact hstep.trans (List.Perm.flatMap_right _ (perm_sortedChildren cs))
  exact main (FsTree.size t) t pre (le_refl _)

theorem lexLeB_iff_not_lex {a b : List Char} :
    lexLeB a b = true ↔ ¬ List.Lex (· < ·) b a := by
  induction a generalizing b with
  | nil =>
    cases b with
    | nil => simp [lexLeB]
    | cons y ys => simp [lexLeB]
  | cons x xs ih =>
    cases b with
    | nil =>
      simp only [lexLeB, List.Lex.not_nil_right]
      simp
      exact List.Lex.nil
    | cons y ys =>
      simp only [lexLeB]
      rcases lt_trichotomy x y with hxy | hxy | hxy
      · simp only [hxy, if_pos, true_iff]
        intro hlex
        cases hlex with
        | cons h => exact absurd hxy (lt_irrefl _)
        | rel h => exact absurd hxy (asymm h)
      · subst hxy
        rw [if_neg (lt_irrefl x), if_neg (lt_irrefl x)]
        rw [ih]
        constructor
        · intro h hlex
          cases hlex with
          | cons h2 => exact h h2
          | rel h2 => exact absurd h2 (lt_irrefl _)
        · intro h hlex
          exact h (List.Lex.cons hlex)
      · rw [if_neg (asymm hxy), if_pos hxy]
        constructor
        · intro h
          cases h
        · intro h
          exact absurd (List.Lex.rel hxy) h

theorem lexLeB_iff_le (s t : String) : lexLeB s.data t.data = true ↔ s ≤ t := by
  rw [lexLeB_iff_not_lex, String.le_iff_toList_le]
  show ¬ List.Lex (· < ·) t.data s.data ↔ s.toList ≤ t.toList
  rw [← not_lt]
  constructor
  · intro h hlt
    exact h hlt
  · intro h hlt
    exact h hlt

theorem nameLe_trans {a b c : FsTree} (h1 : nameLe a b = true)
    (h2 : nameLe b c = true) : nameLe a c = true := by
  rw [nameLe, lexLeB_iff_le] at h1 h2 ⊢
  exact le_trans h1 h2

theorem nameLe_total (a b : FsTree) : nameLe a b = true ∨ nameLe b a = true := by
  rw [nameLe, lexLeB_iff_le, nameLe, lexLeB_iff_le]
  exact le_total a.name b.name

theorem pairwise_insertByName {t : FsTree} {cs : List FsTree}
    (h : cs.Pairwise (fun a b => nameLe a b = true)) :
    (insertByName t cs).Pairwise (fun a b => nameLe a b = true) := by
  induction cs with
  | nil => simp [insertByName]
  | cons c cs ih =>
    rcases List.pairwise_cons.mp h with ⟨hc, hcs⟩
    simp only [insertByName]
    split
    · rename_i htc
      refine List.pairwise_cons.mpr ⟨?_, h⟩
      intro x hx
      rcases List.mem_cons.mp hx with h2 | h2
      · subst h2
        exact htc
      · exact nameLe_trans htc (hc x h2)
    · rename_i htc
      have hct : nameLe c t = true := by
        rcases nameLe_total t c with h2 | h2
        · exact absurd h2 htc
        · exact h2
      refine List.pairwise_cons.mpr ⟨?_, ih hcs⟩
      intro x hx
      rcases mem_insertByName hx with h2 | h2
      · subst h2
        exact hct
      · exact hc x h2

theorem pairwise_sortedChildren (cs : List FsTree) :
    (sortedChildren cs).Pairwise (fun a b => nameLe a b = true) := by
  induction cs with
  | nil => simp [sortedChildren]
  | cons c cs ih => exact pairwise_insertByName ih

theorem sorted_names_sortedChildren (cs : List FsTree) :
    ((sortedChildren cs).map FsTree.name).Sorted (· ≤ ·) := by
  have h := pairwise_sortedChildren cs
  rw [List.Sorted, List.pairwise_map]
  refine h.imp ?_
  intro a b hab
  rw [nameLe, lexLeB_iff_le] at hab
  exact hab

theorem assignLoop_keys (p : Nat) (l : List (String × Store)) :
    ((assignLoop p l).2.1).map Prod.fst = l.map Prod.fst := by
  induction l with
  | nil => simp [assignLoop]
  | cons ns rest ih =>
    obtain ⟨n, st⟩ := ns
    simp [assignLoop, ih]

theorem assignLoop_calls (p : Nat) (l : List (String × Store)) :
    (assignLoop p l).2.2 = l.map (fun ns => (ns.1, p)) := by
  induction l with
  | nil => simp [assignLoop]
  | cons ns rest ih =>
    obtain ⟨n, st⟩ := ns
    simp [assignLoop, ih]

theorem assignLoop_lookup (p : Nat) (l : List (String × Store))
    (hnodup : (l.map Prod.fst).Nodup) :
    ∀ n st, (n, st) ∈ l →
      alistGet (assignLoop p l).2.1 n = some (st.assign_partition p).2 := by
  induction l with
  | nil =>
    intro n st h
    cases h
  | cons ns rest ih =>
    obtain ⟨n0, st0⟩ := ns
    intro n st h
    simp only [List.map_cons, List.nodup_cons] at hnodup
    rcases List.mem_cons.mp h with h1 | h1
    · obtain ⟨h2, h3⟩ := Prod.mk.injEq .. ▸ h1.symm
      subst h2
      subst h3
      simp [assignLoop, alistGet]
    · have hne : n0 ≠ n := by
        intro he
        subst he
        exact hnodup.1 (List.mem_map_of_mem Prod.fst h1)
      simp only [assignLoop, alistGet, if_neg hne]
      exact ih hnodup.2 n st h1

theorem count_pair_map {l : List (String × Store)} {n : String} {p : Nat}
    (hnodup : (l.map Prod.fst).Nodup) (hn : n ∈ l.map Prod.fst) :
    (l.map (fun ns => (ns.1, p))).count (n, p) = 1 := by
  induction l with
  | nil => cases hn
  | cons a rest ih =>
    simp only [List.map_cons, List.nodup_cons] at hnodup
    rcases List.mem_cons.mp hn with h1 | h1
    · subst h1
      have hrest : ((rest.map (fun ns => (ns.1, p))).count (a.1, p)) = 0 := by
        rw [List.count_eq_zero]
        intro hmem
        rcases List.mem_map.mp hmem with ⟨b, hb, hbe⟩
        have : b.1 = a.1 := (Prod.mk.injEq _ _ _ _ ▸ hbe).1
        exact hnodup.1 (this ▸ List.mem_map_of_mem Prod.fst hb)
      simp [List.count_cons, hrest]
    · have hne : a.1 ≠ n := by
        intro he
        exact hnodup.1 (he ▸ h1)
      rw [List.map_cons, List.count_cons, ih hnodup.2 h1]
      simp [hne]

/-! ## Claim theorems -/

/-- C1 (amended): after a first successful `register_store(topic_name,
store_name)`, any second call with the same pair — with identical or with
conflicting parameters (e.g. a different `store_type`) — raises no error and
leaves the manager, in particular its store registry, unchanged. Conflicting
re-registration is silently accepted as a no-op, not rejected. -/
theorem c1_register_store_second_call_noop (m : StateStoreManager)
    (t : Option String) (s : String) (st : Option StoreTypeArg)
    (h : (m.getStoreOpt t s).isSome = true) :
    m.register_store t s st = (m, none) := by
  unfold StateStoreManager.register_store
  simp [h]

/-- C1: witness for the amended theorem at a concrete manager. -/
theorem c1_register_store_second_call_noop_witness :
    (c1Manager1.getStoreOpt (some "topic-a") "store-a").isSome = true ∧
    c1Manager1.register_store (some "topic-a") "store-a" (some .memoryT) =
      (c1Manager1, none) :=
  ⟨by decide, c1_register_store_second_call_noop c1Manager1 (some "topic-a")
    "store-a" (some StoreTypeArg.memoryT) (by decide)⟩

/-- C1: counterexample to the claim as stated. After `register_store("topic-a",
"store-a")` succeeded with store type RocksDB, a second call with the same pair
but the conflicting store type Memory is not rejected: it raises no error and
silently leaves the registry unchanged (the store keeps kind RocksDB). -/
theorem c1_conflicting_reregistration_not_rejected :
    c1Manager1.register_store (some "topic-a") "store-a" (some .memoryT) =
      (c1Manager1, none) ∧
    (c1Manager1.getStoreOpt (some "topic-a") "store-a").map Store.kind =
      some .rocksdb := by
  constructor
  · decide
  · decide

/-- C3: `clear_stores` raises `PartitionStoreIsUsed` and leaves the filesystem
unchanged when any registered store has an assigned partition; with no assigned
partition it returns without error and afterwards the state directory — the
configured path including the `group_id` component when one was given, as the
last conjunct states — and everything below it no longer exist. -/
theorem c3_clear_stores_guard (m : StateStoreManager) (fs : FileSystem) :
    (m.anyStoreHasPartitions = true →
      m.clear_stores fs = (fs, some .partitionStoreIsUsed)) ∧
    (m.anyStoreHasPartitions = false →
      (m.clear_stores fs).2 = none ∧
      ∀ d, m.state_dir = some d →
        d ∉ (m.clear_stores fs).1 ∧
        ∀ p, p ∈ (m.clear_stores fs).1 → List.isPrefixOf d p = false) ∧
    (∀ g sd pr rm dt,
      (mkStateStoreManager (some g) (some sd) pr rm dt).state_dir =
        some (sd ++ [g])) := by
  refine ⟨?_, ?_, ?_⟩
  · intro h
    unfold StateStoreManager.clear_stores
    rw [if_pos h]
  · intro h
    unfold StateStoreManager.clear_stores
    rw [if_neg (by simp [h])]
    constructor
    · cases hd : m.state_dir <;> simp
    · intro d hd
      rw [hd]
      simp only
      constructor
      · intro hmem
        have h2 := List.of_mem_filter hmem
        have h3 : List.isPrefixOf d d = true := by
          induction d with
          | nil => rfl
          | cons a as ih => simp [List.isPrefixOf, ih]
        rw [h3] at h2
        cases h2
      · intro p hp
        have h2 := List.of_mem_filter hp
        cases h4 : List.isPrefixOf d p
        · rfl
        · rw [h4] at h2
          cases h2
  · intro g sd pr rm dt
    rfl

/-- C3: witness — the guard case at a manager with an assigned partition, and
the deletion case at a manager without one, whose state directory
`["sd", "g"]` (state dir `sd` plus group id `g`) is gone afterwards. -/
theorem c3_clear_stores_guard_witness :
    (c3m1.anyStoreHasPartitions = true ∧
      c3m1.clear_stores c3fs = (c3fs, some .partitionStoreIsUsed)) ∧
    (c3m0.anyStoreHasPartitions = false ∧
      (c3m0.clear_stores c3fs).2 = none ∧
      ["sd", "g"] ∉ (c3m0.clear_stores c3fs).1) ∧
    (mkStateStoreManager (some "g") (some ["sd"]) false none .rocksdbT).state_dir =
      some ["sd", "g"] := by
  refine ⟨⟨by decide, (c3_clear_stores_guard c3m1 c3fs).1 (by decide)⟩,
    ⟨by decide, ((c3_clear_stores_guard c3m0 c3fs).2.1 (by decide)).1,
      ?_⟩,
    (c3_clear_stores_guard c3m0 c3fs).2.2 "g" ["sd"] false none .rocksdbT⟩
  exact (((c3_clear_stores_guard c3m0 c3fs).2.1 (by decide)).2 ["sd", "g"]
    (by decide)).1

/-- C4: `on_partition_assign(topic, partition, committed_offsets)` calls
`assign_partition(partition)` exactly once on every store registered under
`topic` (the call trace counts one call per registered store name), and the
returned dict has exactly the registered store names of that topic as keys, in
registration order, each mapped to the `StorePartition` that store returned. -/
theorem c4_on_partition_assign_fanout (m : StateStoreManager)
    (topic : Option String) (p : Nat) (co : List (String × Int))
    (hnodup : ((m.topicStores topic).map Prod.fst).Nodup) :
    ((m.on_partition_assign topic p co).store_partitions.map Prod.fst =
      (m.topicStores topic).map Prod.fst) ∧
    (∀ n st, (n, st) ∈ m.topicStores topic →
      alistGet (m.on_partition_assign topic p co).store_partitions n =
        some (st.assign_partition p).2) ∧
    (∀ n, n ∈ (m.topicStores topic).map Prod.fst →
      (m.on_partition_assign topic p co).assignCalls.count (n, p) = 1) := by
  have hsp : (m.on_partition_assign topic p co).store_partitions =
      (assignLoop p (m.topicStores topic)).2.1 := rfl
  have hac : (m.on_partition_assign topic p co).assignCalls =
      (assignLoop p (m.topicStores topic)).2.2 := rfl
  refine ⟨?_, ?_, ?_⟩
  · rw [hsp, assignLoop_keys]
  · intro n st h
    rw [hsp]
    exact assignLoop_lookup p (m.topicStores topic) hnodup n st h
  · intro n hn
    rw [hac, assignLoop_calls]
    exact count_pair_map hnodup hn

/-- C4: witness at a manager with two registered stores under topic `t`. -/
theorem c4_on_partition_assign_fanout_witness :
    ((c4m.topicStores (some "t")).map Prod.fst).Nodup ∧
    (c4m.on_partition_assign (some "t") 5 []).store_partitions.map Prod.fst =
      ["s1", "s2"] ∧
    (c4m.on_partition_assign (some "t") 5 []).assignCalls.count ("s1", 5) = 1 := by
  have h := c4_on_partition_assign_fanout c4m (some "t") 5 [] (by decide)
  refine ⟨by decide, ?_, h.2.2 "s1" (by decide)⟩
  rw [h.1]
  decide

/-- C5: `register_windowed_store(topic_name, store_name)` raises
`WindowedStoreAlreadyRegistered` exactly when some store — windowed or not —
is already registered under the pair, leaving the manager unchanged; otherwise
it registers a windowed (WindowedRocksDB) store under the pair. -/
theorem c5_register_windowed_store_guard (m : StateStoreManager) (t s : String) :
    ((m.getStoreOpt (some t) s).isSome = true →
      m.register_windowed_store t s =
        (m, some .windowedStoreAlreadyRegisteredError)) ∧
    ((m.getStoreOpt (some t) s).isSome = false →
      (m.register_windowed_store t s).2 = none ∧
      ((m.register_windowed_store t s).1.getStoreOpt (some t) s).map Store.kind =
        some .windowedRocksdb) := by
  constructor
  · intro h
    obtain ⟨store, hs⟩ := Option.isSome_iff_exists.mp h
    unfold StateStoreManager.register_windowed_store
    rw [hs]
  · intro h
    have hs : m.getStoreOpt (some t) s = none :=
      Option.not_isSome_iff_eq_none.mp (by simp [h])
    unfold StateStoreManager.register_windowed_store
    rw [hs]
    refine ⟨rfl, ?_⟩
    rw [getStoreOpt_putStore]
    rfl

/-- C5: witness — registering a windowed store on a fresh manager succeeds and
stores a windowed store; a second registration under the same pair is
rejected. -/
theorem c5_register_windowed_store_guard_witness :
    ((((mkStateStoreManager none none false none .rocksdbT).register_windowed_store
        "t" "s").2 = none) ∧
      ((((mkStateStoreManager none none false none .rocksdbT).register_windowed_store
        "t" "s").1.getStoreOpt (some "t") "s").map Store.kind =
          some .windowedRocksdb)) ∧
    (((mkStateStoreManager none none false none .rocksdbT).register_windowed_store
        "t" "s").1.register_windowed_store "t" "s" =
      (((mkStateStoreManager none none false none .rocksdbT).register_windowed_store
        "t" "s").1, some .windowedStoreAlreadyRegisteredError)) := by
  constructor
  · exact (c5_register_windowed_store_guard
      (mkStateStoreManager none none false none .rocksdbT) "t" "s").2 (by decide)
  · exact (c5_register_windowed_store_guard
      ((mkStateStoreManager none none false none .rocksdbT).register_windowed_store
        "t" "s").1 "t" "s").1 (by decide)

/-- C6: in every execution of `on_partition_revoke(topic, partition)` on a
manager with a recovery manager configured, any store revoke in the call trace
is preceded by the recovery-manager revoke of that partition: a store revoke
never comes before the recovery revoke. -/
theorem c6_recovery_revoke_precedes_store_revokes (m : StateStoreManager)
    (topic : String) (p : Nat) (hrm : m.recovery_manager.isSome = true) :
    ∀ (i : Nat) (n : String) (q : Nat),
      ((m.on_partition_revoke topic p).2)[i]? =
        some (RevokeEvent.storeRevoke n q) →
      ∃ j : Nat, j < i ∧ ((m.on_partition_revoke topic p).2)[j]? =
        some (RevokeEvent.recoveryRevoke p) := by
  intro i n q h
  obtain ⟨rm0, hrm0⟩ := Option.isSome_iff_exists.mp hrm
  by_cases he : (m.topicStores (some topic)).isEmpty
  · exfalso
    unfold StateStoreManager.on_partition_revoke at h
    rw [if_pos he] at h
    simp at h
  · have htr : (m.on_partition_revoke topic p).2 =
        RevokeEvent.recoveryRevoke p :: (revokeLoop p (m.topicStores (some topic))).2 := by
      unfold StateStoreManager.on_partition_revoke
      rw [if_neg he, hrm0]
      rfl
    rw [htr] at h
    cases i with
    | zero =>
      simp at h
    | succ i =>
      refine ⟨0, Nat.succ_pos i, ?_⟩
      rw [htr]
      simp

/-- C6: witness at a manager with a recovery manager and one store under the
revoked topic. -/
theorem c6_recovery_revoke_precedes_store_revokes_witness :
    c6m.recovery_manager.isSome = true ∧
    (c6m.on_partition_revoke "t" 3).2 =
      [RevokeEvent.recoveryRevoke 3, RevokeEvent.storeRevoke "s" 3] ∧
    ∃ j : Nat, j < 1 ∧ ((c6m.on_partition_revoke "t" 3).2)[j]? =
      some (RevokeEvent.recoveryRevoke 3) := by
  refine ⟨by decide, by decide, ?_⟩
  exact c6_recovery_revoke_precedes_store_revokes c6m "t" 3 (by decide) 1 "s" 3
    (by decide)

theorem producedRecords_append (a b : List EmitEvent) :
    producedRecords (a ++ b) = producedRecords a ++ producedRecords b := by
  simp [producedRecords]

theorem producedRecords_replayDelay (st : ReplayState) (ts : Int) :
    producedRecords (replayDelay st ts).2 = [] := by
  unfold replayDelay
  cases st.previous_timestamp with
  | none => rfl
  | some prev =>
    simp only
    split
    · rfl
    · rfl

theorem producedRecords_processRecords (ar : Bool) (st : ReplayState)
    (recs : List FileRecord) :
    producedRecords (processRecords ar st recs).2 = recs := by
  induction recs generalizing st with
  | nil => rfl
  | cons r rest ih =>
    cases ar with
    | true =>
      show producedRecords ((replayDelay st r.timestamp).2 ++ [EmitEvent.produce r] ++
          (processRecords true (replayDelay st r.timestamp).1 rest).2) = r :: rest
      rw [producedRecords_append, producedRecords_append, producedRecords_replayDelay, ih]
      rfl
    | false =>
      show producedRecords (([] : List EmitEvent) ++ [EmitEvent.produce r] ++
          (processRecords false st rest).2) = r :: rest
      rw [producedRecords_append, producedRecords_append, ih]
      rfl

theorem producedRecords_processFiles (ar : Bool) (st : ReplayState)
    (files : List (FsPath × List FileRecord))
    (h : (processFiles ar st files).2 ≠ none) :
    producedRecords (processFiles ar st files).1 = files.flatMap Prod.snd := by
  induction files generalizing st with
  | nil => rfl
  | cons f rest ih =>
    obtain ⟨path, recs⟩ := f
    cases hc : checkFilePartitionNumber st path with
    | none =>
      exfalso
      apply h
      simp only [processFiles, hc]
    | some st1 =>
      have heq : processFiles ar st ((path, recs) :: rest) =
          ((processRecords ar st1 recs).2 ++ [EmitEvent.flush] ++
            (processFiles ar (processRecords ar st1 recs).1 rest).1,
           (processFiles ar (processRecords ar st1 recs).1 rest).2) := by
        simp only [processFiles, hc]
      rw [heq] at h ⊢
      simp only [List.flatMap_cons]
      rw [producedRecords_append, producedRecords_append]
      rw [producedRecords_processRecords]
      have h2 : producedRecords [EmitEvent.flush] = [] := rfl
      rw [h2]
      rw [ih _ h]
      simp

/-- C2 (amended): `FileSource.run` makes at most one pass over the file tree.
With `running` cleared it emits nothing; with `running` set it emits every
record of every file exactly once, in traversal order, and then returns even
though `running` is still set — it does not keep emitting until `running` is
cleared. -/
theorem c2_run_single_pass (as_replay : Bool) (t : FsTree) (res : RunResult)
    (h : FileSource.run true as_replay t = some res) :
    res.passes = 1 ∧ res.runningAtReturn = true ∧
    producedRecords res.events = (fileFinder [] t).flatMap Prod.snd ∧
    FileSource.run false as_replay t =
      some { events := [], passes := 0, runningAtReturn := false } := by
  unfold FileSource.run at h
  rw [if_pos rfl] at h
  dsimp only at h
  cases hp : (processFiles as_replay (ReplayState.mk none none) (fileFinder [] t)).2 with
  | none =>
    rw [hp] at h
    cases h
  | some st =>
    rw [hp] at h
    have hres := Option.some.inj h
    subst hres
    refine ⟨rfl, rfl, ?_, rfl⟩
    exact producedRecords_processFiles as_replay (ReplayState.mk none none) (fileFinder [] t)
      (by rw [hp]; simp)

/-- C2: witness for the amended theorem at a concrete one-file tree. -/
theorem c2_run_single_pass_witness :
    FileSource.run true true c2Tree =
      some { events := [EmitEvent.produce { recKey := "k", recValue := "v", timestamp := 100 },
          EmitEvent.flush], passes := 1, runningAtReturn := true } ∧
    ({ events := [EmitEvent.produce { recKey := "k", recValue := "v", timestamp := 100 },
        EmitEvent.flush], passes := 1, runningAtReturn := true } : RunResult).passes = 1 ∧
    producedRecords [EmitEvent.produce { recKey := "k", recValue := "v", timestamp := 100 },
        EmitEvent.flush] = (fileFinder [] c2Tree).flatMap Prod.snd := by
  have h : FileSource.run true true c2Tree =
      some { events := [EmitEvent.produce { recKey := "k", recValue := "v", timestamp := 100 },
          EmitEvent.flush], passes := 1, runningAtReturn := true } := by decide
  have h2 := c2_run_single_pass true c2Tree _ h
  exact ⟨h, h2.1, h2.2.2.1⟩

/-- C2: counterexample to the claim as stated. On a concrete tree, with the
`running` flag set (and never cleared during the call), `run` returns after a
single pass over the file tree: the returned result records one pass and that
`running` was still true at the `return`, contradicting that `run` does not
return while `running` is set. -/
theorem c2_run_returns_after_one_pass_while_running :
    FileSource.run true true c2Tree =
      some { events := [EmitEvent.produce { recKey := "k", recValue := "v", timestamp := 100 },
          EmitEvent.flush], passes := 1, runningAtReturn := true } := by
  decide

/-- C8: `default_topic()` returns the superclass default topic with its config
replaced by one whose `num_partitions` is the number of entries directly inside
the source filepath directory and whose `replication_factor` is 1. -/
theorem c8_default_topic_folder_fanout (base : Topic) (n : String)
    (cs : List FsTree) :
    FileSource.default_topic base (.dir n cs) =
      some { topicName := base.topicName,
             config := { num_partitions := cs.length, replication_factor := 1 } } := rfl

/-- C9: `_file_finder` yields exactly the non-directory files of the tree
(a permutation of the unsorted depth-first collection), visiting the entries of
every directory in ascending lexicographic name order (the sorted child list is
a permutation of the children with names sorted under the string order), and
deterministically so; in particular a folder named `10` is visited before one
named `2`. -/
theorem c9_file_finder_sorted_traversal (pre : FsPath) (t : FsTree) (n : String)
    (cs : List FsTree) :
    (fileFinder pre t).Perm (naiveFiles pre t) ∧
    fileFinder pre (.dir n cs) =
      (sortedChildren cs).flatMap (fun c => fileFinder (pre ++ [n]) c) ∧
    ((sortedChildren cs).map FsTree.name).Sorted (· ≤ ·) ∧
    (sortedChildren cs).Perm cs ∧
    fileFinder [] c9Tree = [(["top", "10", "a"], []), (["top", "2", "b"], [])] :=
  ⟨fileFinder_perm_naiveFiles pre t, fileFinder_dir_eq pre n cs,
    sorted_names_sortedChildren cs, perm_sortedChildren cs, by decide⟩

theorem div1000_pos (a : Int) : ((0 : ℚ) < (a : ℚ) / 1000) ↔ 0 < a := by
  rw [lt_div_iff₀ (by norm_num : (0 : ℚ) < 1000)]
  simp [Int.cast_pos]

theorem replayDelay_state (st : ReplayState) (ts : Int) :
    (replayDelay st ts).1 =
      { previous_timestamp := some ts, previous_partition := st.previous_partition } := rfl

theorem replayDelay_events_none (st : ReplayState) (ts : Int)
    (h : st.previous_timestamp = none) : (replayDelay st ts).2 = [] := by
  unfold replayDelay
  rw [h]

theorem replayDelay_events_some (st : ReplayState) (ts prev : Int)
    (h : st.previous_timestamp = some prev) :
    (replayDelay st ts).2 =
      if prev < ts then [EmitEvent.sleepSec (((ts - prev : Int) : ℚ) / 1000)]
      else [] := by
  unfold replayDelay
  rw [h]
  have hdiv : Rat.divInt (ts - prev) 1000 = ((ts - prev : Int) : ℚ) / 1000 := by
    rw [Rat.divInt_eq_div]
    norm_num
  have hiff : ((0 : ℚ) < ((ts - prev : Int) : ℚ) / 1000) ↔ prev < ts := by
    rw [div1000_pos]
    omega
  simp only [hdiv]
  rw [if_congr hiff rfl rfl]

theorem processRecords_true_cons (st : ReplayState) (r : FileRecord)
    (rest : List FileRecord) :
    processRecords true st (r :: rest) =
      ((processRecords true (replayDelay st r.timestamp).1 rest).1,
       (replayDelay st r.timestamp).2 ++ [EmitEvent.produce r] ++
         (processRecords true (replayDelay st r.timestamp).1 rest).2) := rfl

theorem processRecords_spec (recs : List FileRecord) (st : ReplayState)
    (p : Option (Int × Int)) (part : Int)
    (hpart : st.previous_partition = some part)
    (hrel : tsRel st.previous_timestamp p part) :
    (processRecords true st recs).2 =
      specReplayTrace p (recs.map (fun r => (part, r))) ∧
    (processRecords true st recs).1.previous_partition = some part := by
  induction recs generalizing st p with
  | nil => exact ⟨rfl, hpart⟩
  | cons r rest ih =>
    have hpart2 : (replayDelay st r.timestamp).1.previous_partition = some part := by
      rw [replayDelay_state]
      exact hpart
    have hrel2 : tsRel (replayDelay st r.timestamp).1.previous_timestamp
        (some (part, r.timestamp)) part := by
      rw [replayDelay_state]
      simp [tsRel]
    obtain ⟨htrace, hpart3⟩ :=
      ih (replayDelay st r.timestamp).1 (some (part, r.timestamp)) hpart2 hrel2
    refine ⟨?_, by rw [processRecords_true_cons]; exact hpart3⟩
    rw [processRecords_true_cons]
    show (replayDelay st r.timestamp).2 ++ [EmitEvent.produce r] ++
        (processRecords true (replayDelay st r.timestamp).1 rest).2 = _
    rw [htrace]
    simp only [List.map_cons, specReplayTrace]
    have hAB : (replayDelay st r.timestamp).2 = specHead p part r.timestamp := by
      cases p with
      | none =>
        simp only [tsRel] at hrel
        rw [replayDelay_events_none st r.timestamp hrel]
        rfl
      | some pp =>
        simp only [tsRel] at hrel
        simp only [specHead]
        by_cases hpp : pp.1 = part
        · rw [if_pos hpp] at hrel
          rw [replayDelay_events_some st r.timestamp pp.2 hrel]
          have hcond : (pp.2 < r.timestamp) ↔ (pp.1 = part ∧ pp.2 < r.timestamp) :=
            ⟨fun h2 => ⟨hpp, h2⟩, fun h2 => h2.2⟩
          rw [if_congr hcond rfl rfl]
        · rw [if_neg hpp] at hrel
          rw [replayDelay_events_none st r.timestamp hrel]
          rw [if_neg (fun hand => hpp hand.1)]
    rw [hAB]
    simp [List.append_assoc]

theorem processRecords_last (recs : List FileRecord) (st : ReplayState)
    (p : Option (Int × Int)) (part : Int) (h : recs ≠ []) :
    ∃ ts : Int, (processRecords true st recs).1 =
        { previous_timestamp := some ts,
          previous_partition := st.previous_partition } ∧
      specAfterL p (recs.map (fun r => (part, r))) = some (part, ts) := by
  induction recs generalizing st p with
  | nil => cases h rfl
  | cons r rest ih =>
    cases rest with
    | nil =>
      refine ⟨r.timestamp, ?_, rfl⟩
      rw [processRecords_true_cons]
      rfl
    | cons r2 rest2 =>
      obtain ⟨ts, h1, h2⟩ :=
        ih (replayDelay st r.timestamp).1 (some (part, r.timestamp)) (by simp)
      refine ⟨ts, ?_, ?_⟩
      · rw [processRecords_true_cons]
        show (processRecords true (replayDelay st r.timestamp).1 (r2 :: rest2)).1 = _
        rw [h1]
        rfl
      · exact h2

theorem specAfterL_append (p : Option (Int × Int)) (a b : List (Int × FileRecord)) :
    specAfterL p (a ++ b) = specAfterL (specAfterL p a) b := by
  unfold specAfterL
  rw [List.foldl_append]

theorem specReplayTrace_append (a b : List (Int × FileRecord))
    (p : Option (Int × Int)) :
    specReplayTrace p (a ++ b) =
      specReplayTrace p a ++ specReplayTrace (specAfterL p a) b := by
  induction a generalizing p with
  | nil => rfl
  | cons x rest ih =>
    obtain ⟨part, r⟩ := x
    simp only [List.cons_append, specReplayTrace, List.append_eq]
    rw [ih]
    have hafter : specAfterL p ((part, r) :: rest) =
        specAfterL (some (part, r.timestamp)) rest := rfl
    rw [hafter]
    simp [List.append_assoc]

theorem pacingEvents_append (a b : List EmitEvent) :
    pacingEvents (a ++ b) = pacingEvents a ++ pacingEvents b := by
  simp [pacingEvents]

theorem pacingEvents_replayDelay (st : ReplayState) (ts : Int) :
    pacingEvents (replayDelay st ts).2 = (replayDelay st ts).2 := by
  unfold replayDelay
  cases st.previous_timestamp with
  | none => rfl
  | some prev =>
    simp only
    split
    · rfl
    · rfl

theorem pacingEvents_processRecords (st : ReplayState) (recs : List FileRecord) :
    pacingEvents (processRecords true st recs).2 = (processRecords true st recs).2 := by
  induction recs generalizing st with
  | nil => rfl
  | cons r rest ih =>
    rw [processRecords_true_cons]
    show pacingEvents ((replayDelay st r.timestamp).2 ++ [EmitEvent.produce r] ++
        (processRecords true (replayDelay st r.timestamp).1 rest).2) = _
    rw [pacingEvents_append, pacingEvents_append, pacingEvents_replayDelay, ih]
    rfl

theorem checkFile_eq_of_parse {st : ReplayState} {path : FsPath} {part : Int}
    (h : partitionOfPath path = some part) :
    checkFilePartitionNumber st path =
      some (if st.previous_partition ≠ some part then ReplayState.mk none (some part)
        else st) := by
  unfold checkFilePartitionNumber
  rw [h]
  show (if st.previous_partition ≠ some part
      then some (ReplayState.mk none (some part)) else some st) = _
  by_cases hc : st.previous_partition ≠ some part
  · rw [if_pos hc, if_pos hc]
  · rw [if_neg hc, if_neg hc]

theorem flatPartRecords_cons_of_parse {path : FsPath} {recs : List FileRecord}
    {rest : List (FsPath × List FileRecord)} {part : Int}
    (h : partitionOfPath path = some part) :
    flatPartRecords ((path, recs) :: rest) =
      recs.map (fun r => (part, r)) ++ flatPartRecords rest := by
  unfold flatPartRecords
  simp only [List.flatMap_cons, h]

theorem st1_props {st : ReplayState} {p : Option (Int × Int)} {part : Int}
    (hrel : stRel st p) :
    (if st.previous_partition ≠ some part then ReplayState.mk none (some part)
      else st).previous_partition = some part ∧
    tsRel (if st.previous_partition ≠ some part then ReplayState.mk none (some part)
      else st).previous_timestamp p part := by
  cases p with
  | none =>
    simp only [stRel] at hrel
    rw [hrel]
    constructor
    · rw [if_pos (by simp)]
    · rw [if_pos (by simp)]
      simp [tsRel]
  | some pp =>
    simp only [stRel] at hrel
    rw [hrel]
    by_cases hpp : pp.1 = part
    · rw [if_neg (by simp [hpp])]
      constructor
      · show some pp.1 = some part
        rw [hpp]
      · simp [tsRel, hpp]
    · rw [if_pos (by simp [hpp])]
      constructor
      · rfl
      · simp [tsRel, hpp]

theorem processFiles_spec (files : List (FsPath × List FileRecord))
    (st : ReplayState) (p : Option (Int × Int)) (hrel : stRel st p)
    (hparse : ∀ f ∈ files, (partitionOfPath f.1).isSome = true)
    (hne : ∀ f ∈ files, f.2 ≠ []) :
    pacingEvents (processFiles true st files).1 =
      specReplayTrace p (flatPartRecords files) ∧
    (processFiles true st files).2 ≠ none := by
  induction files generalizing st p with
  | nil => exact ⟨rfl, by simp [processFiles]⟩
  | cons f rest ih =>
    obtain ⟨path, recs⟩ := f
    obtain ⟨part, hpart⟩ :=
      Option.isSome_iff_exists.mp (hparse _ (List.mem_cons_self _ _))
    have hrecs : recs ≠ [] := hne _ (List.mem_cons_self _ _)
    have hcheck := @checkFile_eq_of_parse st path part hpart
    set st1 := if st.previous_partition ≠ some part then ReplayState.mk none (some part)
      else st with hst1
    obtain ⟨hpart1, hrel1⟩ := @st1_props st p part hrel
    have heq : processFiles true st ((path, recs) :: rest) =
        ((processRecords true st1 recs).2 ++ [EmitEvent.flush] ++
          (processFiles true (processRecords true st1 recs).1 rest).1,
         (processFiles true (processRecords true st1 recs).1 rest).2) := by
      simp only [processFiles, hcheck]
    obtain ⟨htr, hp2⟩ := processRecords_spec recs st1 p part hpart1 hrel1
    obtain ⟨ts, hfin, hafter⟩ := processRecords_last recs st1 p part hrecs
    have hrel2 : stRel (processRecords true st1 recs).1 (some (part, ts)) := by
      unfold stRel
      rw [hfin, hpart1]
    obtain ⟨ihtr, ihne⟩ := ih (processRecords true st1 recs).1 (some (part, ts)) hrel2
      (fun f hf => hparse f (List.mem_cons_of_mem _ hf))
      (fun f hf => hne f (List.mem_cons_of_mem _ hf))
    constructor
    · rw [heq]
      show pacingEvents ((processRecords true st1 recs).2 ++ [EmitEvent.flush] ++
          (processFiles true (processRecords true st1 recs).1 rest).1) = _
      rw [pacingEvents_append, pacingEvents_append, pacingEvents_processRecords]
      have hfl : pacingEvents [EmitEvent.flush] = [] := rfl
      rw [hfl, htr, ihtr]
      rw [flatPartRecords_cons_of_parse hpart]
      rw [specReplayTrace_append]
      rw [hafter]
      simp
    · rw [heq]
      exact ihne

/-- C7 (amended): for a `FileSource` with `as_replay = True` whose file tree has
integer-named partition folders and no empty data file, the pacing events of
`run` are exactly the claim-side pacing of the flattened record stream keyed by
partition number: before each record the source sleeps
`(current_timestamp - previous_timestamp) / 1000` seconds exactly when the
previous record carries the same partition number (`int` of the parent folder
name) and the difference is positive; whenever the partition number changes the
timestamp tracker has been reset and the first record gets no delay. Delays are
thus reproduced per partition number, not per partition folder identity. -/
theorem c7_replay_pacing_per_partition_number (t : FsTree) (res : RunResult)
    (hparse : ∀ f ∈ fileFinder [] t, (partitionOfPath f.1).isSome = true)
    (hne : ∀ f ∈ fileFinder [] t, f.2 ≠ [])
    (hrun : FileSource.run true true t = some res) :
    pacingEvents res.events =
      specReplayTrace none (flatPartRecords (fileFinder [] t)) := by
  unfold FileSource.run at hrun
  rw [if_pos rfl] at hrun
  dsimp only at hrun
  obtain ⟨htr, hsome⟩ := processFiles_spec (fileFinder [] t)
    (ReplayState.mk none none) none rfl hparse hne
  cases hp : (processFiles true (ReplayState.mk none none) (fileFinder [] t)).2 with
  | none => exact absurd hp hsome
  | some st =>
    rw [hp] at hrun
    have hres := Option.some.inj hrun
    subst hres
    exact htr

/-- C7: witness for the amended theorem at a tree with one partition folder
holding two records 2000 ms apart — the pacing сequence sleeps 2 seconds
between them. -/
theorem c7_replay_pacing_witness :
    FileSource.run true true c7wTree = some c7wRes ∧
    pacingEvents c7wRes.events =
      specReplayTrace none (flatPartRecords (fileFinder [] c7wTree)) ∧
    pacingEvents c7wRes.events =
      [EmitEvent.produce { recKey := "k", recValue := "v1", timestamp := 1000 },
       EmitEvent.sleepSec 2,
       EmitEvent.produce { recKey := "k", recValue := "v2", timestamp := 3000 }] := by
  have h1 : FileSource.run true true c7wTree = some c7wRes := by decide
  exact ⟨h1, c7_replay_pacing_per_partition_number c7wTree c7wRes (by decide)
    (by decide) h1, by decide⟩

/-- C7: counterexample to the claim as stated, which promises delays per
partition folder with a reset whenever the partition changes. In the tree
`tops/a/0/f1` (record at 1000 ms) and `tops/b/0/f2` (record at 2000 ms) the
second record is the first record of the distinct partition folder `tops/b/0`,
yet `run` sleeps 1 second before producing it: the tracker is not reset because
only the partition number (0 in both folders) is compared, never the folder. -/
theorem c7_sleep_despite_partition_folder_change :
    FileSource.run true true c7Tree = some c7Res := by
  decide

theorem changeWeight_pos_mem {ws : List Nat} {c : Int} (h : 0 < changeWeight ws c) :
    c = -1 ∨ c = 0 ∨ c = 1 := by
  by_cases h1 : c = -1
  · exact Or.inl h1
  · by_cases h2 : c = 0
    · exact Or.inr (Or.inl h2)
    · by_cases h3 : c = 1
      · exact Or.inr (Or.inr h3)
      · unfold changeWeight at h
        rw [if_neg h1, if_neg h2, if_neg h3] at h
        exact absurd h (lt_irrefl 0)

theorem changeWeight_40 {c : Int} (h : 0 < changeWeight [0, 0, 100] c) : c = 1 := by
  rcases changeWeight_pos_mem h with h1 | h1 | h1
  · subst h1
    exact absurd h (by decide)
  · subst h1
    exact absurd h (by decide)
  · exact h1

theorem bucketOf_spec (temp : Int) :
    bucketOf temp ≤ temp ∧ temp < bucketOf temp + 10 ∧ (10 : Int) ∣ bucketOf temp := by
  unfold bucketOf
  rw [Int.fdiv_eq_ediv temp (by norm_num)]
  refine ⟨?_, ?_, ⟨temp / 10, by ring⟩⟩
  · omega
  · omega

theorem table_lookup_isSome {table : Int → Option (List Nat)} {temp : Int}
    (htab : table = probabilities_normal ∨ table = probabilities_issue)
    (h40 : 40 ≤ temp) (h99 : temp ≤ 99) :
    (table (bucketOf temp)).isSome = true := by
  have hbs := bucketOf_spec temp
  have hcases : bucketOf temp = 40 ∨ bucketOf temp = 50 ∨ bucketOf temp = 60 ∨
      bucketOf temp = 70 ∨ bucketOf temp = 80 ∨ bucketOf temp = 90 := by omega
  rcases htab with h | h <;> subst h <;>
    rcases hcases with h2 | h2 | h2 | h2 | h2 | h2 <;> rw [h2] <;> rfl

theorem table_lookup_and_bounds {table : Int → Option (List Nat)} {temp c : Int}
    {ws : List Nat}
    (htab : table = probabilities_normal ∨ table = probabilities_issue)
    (h40 : 40 ≤ temp) (h99 : temp ≤ 99)
    (hws : table (bucketOf temp) = some ws)
    (hc : 0 < changeWeight ws c) :
    40 ≤ temp + c ∧ temp + c ≤ 100 := by
  have hbs := bucketOf_spec temp
  by_cases hlow : temp ≤ 49
  · have hb : bucketOf temp = 40 := by omega
    rw [hb] at hws
    have hws2 : ws = [0, 0, 100] := by
      rcases htab with h | h <;> subst h
      · exact (Option.some.inj hws).symm
      · exact (Option.some.inj hws).symm
    subst hws2
    have hc1 : c = 1 := changeWeight_40 hc
    omega
  · rcases changeWeight_pos_mem hc with h1 | h1 | h1 <;> subst h1 <;> omega

theorem update_machine_temp_eq_of_lookup {s : GenState} {mid : Nat} {c : Int}
    {table : Int → Option (List Nat)} {ws : List Nat}
    (ht : machine_types mid = some table)
    (hl : table (bucketOf (s.temp mid)) = some ws) :
    update_machine_temp s mid c = some (s.setTemp mid (s.temp mid + c)) := by
  unfold update_machine_temp
  rw [ht]
  dsimp only
  rw [hl]

theorem generate_event_eq_of_upd {s : GenState} {c : Int} {s1 : GenState}
    (hupd : update_machine_temp s (s.event_count % 3) c = some s1) :
    generate_event s c = some (
      (if s1.temp (s.event_count % 3) = 100
        then { s1 with event_count := s1.event_count + 1, stopped := true }
        else { s1 with event_count := s1.event_count + 1 }),
      { key := toString (s.event_count % 3),
        temperature := s1.temp (s.event_count % 3) }) := by
  unfold generate_event
  dsimp only
  rw [hupd]
  rfl

theorem generate_event_step {s : GenState} {c : Int}
    (hinv : tempInv s) (hstop : s.stopped = false) (hvc : validChoice s c = true) :
    ∃ r, generate_event s c = some r ∧ tempInv r.1 := by
  obtain ⟨hI0, hI1, hI2, hI3⟩ := hinv
  have hI4 := hI3 hstop
  have hm : s.event_count % 3 = 0 ∨ s.event_count % 3 = 1 ∨ s.event_count % 3 = 2 := by
    omega
  rcases hm with hm | hm | hm
  · obtain ⟨ws, hws⟩ := Option.isSome_iff_exists.mp
      (@table_lookup_isSome probabilities_normal s.temp0 (Or.inl rfl) hI0.1 hI4.1)
    have hw : 0 < changeWeight ws c := by
      unfold validChoice at hvc
      dsimp only at hvc
      rw [hm] at hvc
      rw [show machine_types 0 = some probabilities_normal from rfl] at hvc
      dsimp only at hvc
      rw [show s.temp 0 = s.temp0 from rfl] at hvc
      rw [hws] at hvc
      dsimp only at hvc
      exact of_decide_eq_true hvc
    have hbounds := @table_lookup_and_bounds probabilities_normal s.temp0 c ws
      (Or.inl rfl) hI0.1 hI4.1 hws hw
    have hupd : update_machine_temp s (s.event_count % 3) c =
        some (s.setTemp (s.event_count % 3) (s.temp (s.event_count % 3) + c)) := by
      rw [hm]
      exact update_machine_temp_eq_of_lookup rfl hws
    refine ⟨_, generate_event_eq_of_upd hupd, ?_⟩
    dsimp only
    rw [hm]
    by_cases h100 : (s.setTemp (s.event_count % 3) (s.temp (s.event_count % 3) + c)).temp 0 = 100
    · rw [hm] at h100
      rw [if_pos h100]
      simp only [GenState.setTemp, GenState.temp] at h100
      simp [tempInv, GenState.setTemp, GenState.temp, hstop] at h100 ⊢
      omega
    · rw [hm] at h100
      rw [if_neg h100]
      simp only [GenState.setTemp, GenState.temp] at h100
      simp [tempInv, GenState.setTemp, GenState.temp, hstop] at h100 ⊢
      omega
  · obtain ⟨ws, hws⟩ := Option.isSome_iff_exists.mp
      (@table_lookup_isSome probabilities_normal s.temp1 (Or.inl rfl) hI1.1 hI4.2.1)
    have hw : 0 < changeWeight ws c := by
      unfold validChoice at hvc
      dsimp only at hvc
      rw [hm] at hvc
      rw [show machine_types 1 = some probabilities_normal from rfl] at hvc
      dsimp only at hvc
      rw [show s.temp 1 = s.temp1 from rfl] at hvc
      rw [hws] at hvc
      dsimp only at hvc
      exact of_decide_eq_true hvc
    have hbounds := @table_lookup_and_bounds probabilities_normal s.temp1 c ws
      (Or.inl rfl) hI1.1 hI4.2.1 hws hw
    have hupd : update_machine_temp s (s.event_count % 3) c =
        some (s.setTemp (s.event_count % 3) (s.temp (s.event_count % 3) + c)) := by
      rw [hm]
      exact update_machine_temp_eq_of_lookup rfl hws
    refine ⟨_, generate_event_eq_of_upd hupd, ?_⟩
    dsimp only
    rw [hm]
    by_cases h100 : (s.setTemp (s.event_count % 3) (s.temp (s.event_count % 3) + c)).temp 1 = 100
    · rw [hm] at h100
      rw [if_pos h100]
      simp only [GenState.setTemp, GenState.temp] at h100
      simp [tempInv, GenState.setTemp, GenState.temp, hstop] at h100 ⊢
      omega
    · rw [hm] at h100
      rw [if_neg h100]
      simp only [GenState.setTemp, GenState.temp] at h100
      simp [tempInv, GenState.setTemp, GenState.temp, hstop] at h100 ⊢
      omega
  · obtain ⟨ws, hws⟩ := Option.isSome_iff_exists.mp
      (@table_lookup_isSome probabilities_issue s.temp2 (Or.inr rfl) hI2.1 hI4.2.2)
    have hw : 0 < changeWeight ws c := by
      unfold validChoice at hvc
      dsimp only at hvc
      rw [hm] at hvc
      rw [show machine_types 2 = some probabilities_issue from rfl] at hvc
      dsimp only at hvc
      rw [show s.temp 2 = s.temp2 from rfl] at hvc
      rw [hws] at hvc
      dsimp only at hvc
      exact of_decide_eq_true hvc
    have hbounds := @table_lookup_and_bounds probabilities_issue s.temp2 c ws
      (Or.inr rfl) hI2.1 hI4.2.2 hws hw
    have hupd : update_machine_temp s (s.event_count % 3) c =
        some (s.setTemp (s.event_count % 3) (s.temp (s.event_count % 3) + c)) := by
      rw [hm]
      exact update_machine_temp_eq_of_lookup rfl hws
    refine ⟨_, generate_event_eq_of_upd hupd, ?_⟩
    dsimp only
    rw [hm]
    by_cases h100 : (s.setTemp (s.event_count % 3) (s.temp (s.event_count % 3) + c)).temp 2 = 100
    · rw [hm] at h100
      rw [if_pos h100]
      simp only [GenState.setTemp, GenState.temp] at h100
      simp [tempInv, GenState.setTemp, GenState.temp, hstop] at h100 ⊢
      omega
    · rw [hm] at h100
      rw [if_neg h100]
      simp only [GenState.setTemp, GenState.temp] at h100
      simp [tempInv, GenState.setTemp, GenState.temp, hstop] at h100 ⊢
      omega

/-- Lookups never raise from a running in-range state: for every state
satisfying the temperature invariant whose generator has not stopped, and for
any drawn change, `update_machine_temp` of the machine about to be updated
succeeds — both the `machine_types` lookup and the probability-table lookup
`(temp // 10) * 10` hit an existing key. -/
theorem update_lookup_isSome {s : GenState} (hinv : tempInv s)
    (hstop : s.stopped = false) (c2 : Int) :
    (update_machine_temp s (s.event_count % 3) c2).isSome = true := by
  obtain ⟨hI0, hI1, hI2, hI3⟩ := hinv
  have hI4 := hI3 hstop
  have hm : s.event_count % 3 = 0 ∨ s.event_count % 3 = 1 ∨ s.event_count % 3 = 2 := by
    omega
  rcases hm with hm | hm | hm
  · obtain ⟨ws, hws⟩ := Option.isSome_iff_exists.mp
      (@table_lookup_isSome probabilities_normal s.temp0 (Or.inl rfl) hI0.1 hI4.1)
    rw [hm]
    have hupd : update_machine_temp s 0 c2 =
        some (s.setTemp 0 (s.temp 0 + c2)) :=
      update_machine_temp_eq_of_lookup rfl hws
    rw [hupd]
    rfl
  · obtain ⟨ws, hws⟩ := Option.isSome_iff_exists.mp
      (@table_lookup_isSome probabilities_normal s.temp1 (Or.inl rfl) hI1.1 hI4.2.1)
    rw [hm]
    have hupd : update_machine_temp s 1 c2 =
        some (s.setTemp 1 (s.temp 1 + c2)) :=
      update_machine_temp_eq_of_lookup rfl hws
    rw [hupd]
    rfl
  · obtain ⟨ws, hws⟩ := Option.isSome_iff_exists.mp
      (@table_lookup_isSome probabilities_issue s.temp2 (Or.inr rfl) hI2.1 hI4.2.2)
    rw [hm]
    have hupd : update_machine_temp s 2 c2 =
        some (s.setTemp 2 (s.temp 2 + c2)) :=
      update_machine_temp_eq_of_lookup rfl hws
    rw [hupd]
    rfl

/-- C10: starting from the initial machine temperatures `{0: 66, 1: 58, 2: 62}`,
every run whose draws the weighted tables allow — the loop stopping as soon as
`stop()` is invoked, and the draw list imposing no constraint on steps that
would raise — returns without raising (`runGen` is `some`, which fails for a
program whose table misses a bucket row, so this states the absence of
`KeyError`), keeps each machine temperature within `[40, 100]`, keeps every
temperature at most 99 as long as the generator has not stopped (updates only
run on non-stopped states, so `update_machine_temp` is never applied at 100),
and from the reached non-stopped states the probability-table lookup
`(temp // 10) * 10` of the next update hits an existing key whatever change is
drawn; finally, the `-1` change carries zero weight at bucket 40 in both
tables, which is what keeps temperatures from dropping below 40. -/
theorem c10_generator_temperature_invariant (cs : List Int)
    (h : validChoices initGen cs = true) :
    (∃ s, runGen initGen cs = some s ∧
      (40 ≤ s.temp0 ∧ s.temp0 ≤ 100) ∧ (40 ≤ s.temp1 ∧ s.temp1 ≤ 100) ∧
      (40 ≤ s.temp2 ∧ s.temp2 ≤ 100) ∧
      (s.stopped = false → s.temp0 ≤ 99 ∧ s.temp1 ≤ 99 ∧ s.temp2 ≤ 99) ∧
      (s.stopped = false →
        ∀ c2 : Int, (update_machine_temp s (s.event_count % 3) c2).isSome = true)) ∧
    probabilities_normal 40 = some [0, 0, 100] ∧
    probabilities_issue 40 = some [0, 0, 100] ∧
    changeWeight [0, 0, 100] (-1) = 0 := by
  refine ⟨?_, rfl, rfl, rfl⟩
  have main : ∀ cl s, tempInv s → validChoices s cl = true →
      ∃ s2, runGen s cl = some s2 ∧ tempInv s2 := by
    intro cl
    induction cl with
    | nil =>
      intro s hin hv
      exact ⟨s, rfl, hin⟩
    | cons c rest ih =>
      intro s hin hv
      by_cases hstop : s.stopped = true
      · refine ⟨s, ?_, hin⟩
        unfold runGen
        rw [if_pos hstop]
      · have hstop2 : s.stopped = false := by
          cases hsv : s.stopped
          · rfl
          · exact absurd hsv hstop
        unfold validChoices at hv
        rw [if_neg hstop] at hv
        rw [Bool.and_eq_true] at hv
        obtain ⟨r, hge, hpres⟩ := generate_event_step hin hstop2 hv.1
        have hv2 := hv.2
        rw [hge] at hv2
        dsimp only at hv2
        obtain ⟨s2, hrun, hinv2⟩ := ih r.1 hpres hv2
        refine ⟨s2, ?_, hinv2⟩
        unfold runGen
        rw [if_neg hstop, hge]
        exact hrun
  have hinit : tempInv initGen := by
    refine ⟨⟨by decide, by decide⟩, ⟨by decide, by decide⟩, ⟨by decide, by decide⟩, ?_⟩
    intro hfalse
    exact ⟨by decide, by decide, by decide⟩
  obtain ⟨s2, hrun, hinv2⟩ := main cs initGen hinit h
  refine ⟨s2, hrun, hinv2.1, hinv2.2.1, hinv2.2.2.1, hinv2.2.2.2, ?_⟩
  intro hst c2
  exact update_lookup_isSome hinv2 hst c2

/-- C10: witness — the draw sequence `[1, 1, 1]` (one +1 step per machine) is
allowed by the tables, and the run completes: the returned state exists, so no
lookup raised. -/
theorem c10_generator_temperature_invariant_witness :
    validChoices initGen [1, 1, 1] = true ∧
    (runGen initGen [1, 1, 1]).isSome = true := by
  have h := c10_generator_temperature_invariant [1, 1, 1] (by decide)
  obtain ⟨⟨s, hs, _⟩, _⟩ := h
  exact ⟨by decide, by rw [hs]; rfl⟩
